import Mathlib

/-!
Verification of the perceptronix multinomial perceptron core.

The repository source under verification is src/src/lib/multinomial_perceptron.cc,
which gives the freeze constructors, Read and Write for the three used storage
topologies (dense/dense, sparse/dense, sparse/sparse).  The weight cell
(weight.h), the table wrappers (table.h) and the generic predict/train logic
(multinomial_perceptron.h) are declared and used by that file but their code is
not part of the given sources, so those parts are modelled from the spec, as
marked on each definition.

Scalars are embedded as rationals, the training clock as a natural number.
Protobuf messages are embedded as Lean structures; the byte-level protobuf
parse is the opaque external capability of the spec and is represented by an
Option-valued message argument (none = the parse failed).
-/

namespace Perceptronix

/-- Modelled from the spec: the averaged weight cell of weight.h (not under
src/), holding the true weight, the cached averaged weight (the accumulated
sum of true weight times elapsed time) and the time of the last update. -/
structure AveragedWeight where
  weight : ℚ
  aweight : ℚ
  time : ℕ
deriving DecidableEq, Repr

/-- Modelled from the spec: cells are created at zero on table construction. -/
def AveragedWeight.zero : AveragedWeight := ⟨0, 0, 0⟩

/-- Modelled from the spec: freshening moves the cached average forward to the
given clock using the identity
freshened_average = averaged_weight + (current_time - last_update_time) * true_weight. -/
def AveragedWeight.freshen (c : AveragedWeight) (t : ℕ) : AveragedWeight :=
  ⟨c.weight, c.aweight + ((t - c.time : ℕ) : ℚ) * c.weight, t⟩

/-- Modelled from the spec: update freshens the average forward to
current_time, accumulates delta into the true weight, and advances
last_update_time. -/
def AveragedWeight.update (c : AveragedWeight) (delta : ℚ) (t : ℕ) : AveragedWeight :=
  let f := c.freshen t
  ⟨f.weight + delta, f.aweight, f.time⟩

/-- Modelled from the spec: get returns the true weight, used during
training-time inference. -/
def AveragedWeight.get (c : AveragedWeight) : ℚ := c.weight

/-- Modelled from the spec: getAverage returns the time-weighted mean of the
true weight over rounds 0 to current_time - 1, freshening first, and returns
exactly 0 when current_time is 0 (guarding the division by the clock). -/
def AveragedWeight.getAverage (c : AveragedWeight) (t : ℕ) : ℚ :=
  if t = 0 then 0 else (c.freshen t).aweight / (t : ℚ)

/-- Applies a sequence of (delta, time) updates to a cell, oldest first. -/
def applyUpdates (c : AveragedWeight) (us : List (ℚ × ℕ)) : AveragedWeight :=
  us.foldl (fun a u => a.update u.1 u.2) c

/-- Value of the step function of the true weight during round s: the sum of
all deltas applied at or before time s. -/
def weightAt (us : List (ℚ × ℕ)) (s : ℕ) : ℚ :=
  ((us.filter (fun u => u.2 ≤ s)).map Prod.fst).sum

/-- Sum of the step function over rounds 0 to T - 1. -/
def cumSum (us : List (ℚ × ℕ)) (T : ℕ) : ℚ :=
  ∑ s ∈ Finset.range T, weightAt us s

/-- Direct, non-lazy recomputation of the averaged weight: the time-weighted
mean of the step function of the true weight over rounds 0 to T - 1. -/
def directAverage (us : List (ℚ × ℕ)) (T : ℕ) : ℚ :=
  cumSum us T / (T : ℚ)

/-- Largest update time occurring in the sequence, 0 when there is none. -/
def tmax (us : List (ℚ × ℕ)) : ℕ :=
  us.foldr (fun u a => max u.2 a) 0

lemma tmax_cons (v : ℚ × ℕ) (vs : List (ℚ × ℕ)) :
    tmax (v :: vs) = max v.2 (tmax vs) := rfl

lemma le_tmax {us : List (ℚ × ℕ)} {u : ℚ × ℕ} (h : u ∈ us) : u.2 ≤ tmax us := by
  induction us with
  | nil => cases h
  | cons v vs ih =>
    rw [tmax_cons]
    rcases List.mem_cons.mp h with rfl | h
    · exact le_max_left _ _
    · exact le_trans (ih h) (le_max_right _ _)

lemma tmax_le {us : List (ℚ × ℕ)} {b : ℕ} (h : ∀ u ∈ us, u.2 ≤ b) : tmax us ≤ b := by
  induction us with
  | nil => simp [tmax]
  | cons v vs ih =>
    simp only [tmax, List.foldr_cons] at *
    exact max_le (h v (by simp)) (ih (fun u hu => h u (by simp [hu])))

lemma foldr_max_const {us : List (ℚ × ℕ)} {b : ℕ} (h : ∀ u ∈ us, u.2 ≤ b) :
    us.foldr (fun u a => max u.2 a) b = b := by
  induction us with
  | nil => rfl
  | cons v vs ih =>
    simp only [List.foldr_cons]
    rw [ih (fun u hu => h u (by simp [hu]))]
    exact max_eq_right (h v (by simp))

lemma tmax_append_last {us : List (ℚ × ℕ)} {d : ℚ} {t : ℕ}
    (h : ∀ u ∈ us, u.2 ≤ t) : tmax (us ++ [(d, t)]) = t := by
  unfold tmax
  rw [List.foldr_append]
  simpa using foldr_max_const h

lemma weightAt_of_tmax_le {us : List (ℚ × ℕ)} {s : ℕ} (h : tmax us ≤ s) :
    weightAt us s = (us.map Prod.fst).sum := by
  unfold weightAt
  have hf : us.filter (fun u => u.2 ≤ s) = us := by
    rw [List.filter_eq_self]
    intro u hu
    simpa using le_trans (le_tmax hu) h
  rw [hf]

lemma weightAt_append_last {us : List (ℚ × ℕ)} {d : ℚ} {t s : ℕ} (h : s < t) :
    weightAt (us ++ [(d, t)]) s = weightAt us s := by
  unfold weightAt
  rw [List.filter_append]
  have : ¬ (t ≤ s) := not_le.mpr h
  simp [this]

lemma cumSum_extend {us : List (ℚ × ℕ)} {m t : ℕ} (hm : tmax us ≤ m) (hmt : m ≤ t) :
    cumSum us t = cumSum us m + ((t - m : ℕ) : ℚ) * (us.map Prod.fst).sum := by
  have hsplit : cumSum us t = cumSum us m + ∑ s ∈ Finset.Ico m t, weightAt us s := by
    unfold cumSum
    rw [Finset.range_eq_Ico,
      Finset.sum_Ico_consecutive (weightAt us) (Nat.zero_le m) hmt]
  rw [hsplit]
  congr 1
  rw [Finset.sum_congr rfl
    (fun s hs => weightAt_of_tmax_le (le_trans hm (Finset.mem_Ico.mp hs).1)),
    Finset.sum_const, Nat.card_Ico, nsmul_eq_mul]

lemma cumSum_append_last {us : List (ℚ × ℕ)} {d : ℚ} {t : ℕ} :
    cumSum (us ++ [(d, t)]) t = cumSum us t := by
  unfold cumSum
  exact Finset.sum_congr rfl
    (fun s hs => weightAt_append_last (Finset.mem_range.mp hs))

lemma applyUpdates_append_last (c : AveragedWeight) (us : List (ℚ × ℕ)) (u : ℚ × ℕ) :
    applyUpdates c (us ++ [u]) = (applyUpdates c us).update u.1 u.2 := by
  unfold applyUpdates
  rw [List.foldl_append]
  rfl

lemma applyUpdates_zero_spec (us : List (ℚ × ℕ))
    (h : us.Pairwise (fun a b => a.2 < b.2)) :
    (applyUpdates AveragedWeight.zero us).weight = (us.map Prod.fst).sum ∧
    (applyUpdates AveragedWeight.zero us).time = tmax us ∧
    (applyUpdates AveragedWeight.zero us).aweight = cumSum us (tmax us) := by
  induction us using List.reverseRecOn with
  | nil =>
    refine ⟨rfl, rfl, ?_⟩
    simp [applyUpdates, AveragedWeight.zero, cumSum, tmax]
  | append_singleton us u ih =>
    obtain ⟨hus, -, hlt⟩ := List.pairwise_append.mp h
    have hle : ∀ v ∈ us, v.2 ≤ u.2 :=
      fun v hv => le_of_lt (hlt v hv u (by simp))
    obtain ⟨ihw, iht, iha⟩ := ih hus
    obtain ⟨d, t⟩ := u
    rw [applyUpdates_append_last]
    have htm : tmax (us ++ [(d, t)]) = t := tmax_append_last hle
    refine ⟨?_, ?_, ?_⟩
    · simp [AveragedWeight.update, AveragedWeight.freshen, ihw]
    · simp [AveragedWeight.update, AveragedWeight.freshen, htm]
    · show (applyUpdates AveragedWeight.zero us).aweight +
        ((t - (applyUpdates AveragedWeight.zero us).time : ℕ) : ℚ) *
          (applyUpdates AveragedWeight.zero us).weight = _
      rw [iha, iht, ihw, htm, cumSum_append_last]
      exact (cumSum_extend (le_refl _) (tmax_le hle)).symm

/-- C3: for an averaged weight cell receiving deltas at strictly increasing
times, reading the average at any clock value T past every update time
yields exactly the time-weighted mean of the step function of the true
weight over rounds 0 to T - 1: the lazy freshen-then-normalize computation
coincides with the direct non-lazy recomputation. -/
theorem getAverage_eq_directAverage (us : List (ℚ × ℕ)) (T : ℕ)
    (h : us.Pairwise (fun a b => a.2 < b.2)) (hT : ∀ u ∈ us, u.2 < T) :
    (applyUpdates AveragedWeight.zero us).getAverage T = directAverage us T := by
  obtain ⟨hw, ht, ha⟩ := applyUpdates_zero_spec us h
  by_cases hT0 : T = 0
  · subst hT0
    simp [AveragedWeight.getAverage, directAverage, cumSum]
  · unfold AveragedWeight.getAverage directAverage
    rw [if_neg hT0]
    show ((applyUpdates AveragedWeight.zero us).aweight +
      ((T - (applyUpdates AveragedWeight.zero us).time : ℕ) : ℚ) *
        (applyUpdates AveragedWeight.zero us).weight) / (T : ℚ) = _
    rw [ha, ht, hw,
      ← cumSum_extend (le_refl _) (tmax_le (fun u hu => le_of_lt (hT u hu)))]

/-- Witness for C3 at a concrete update sequence: deltas 2 at time 1 and -1
at time 3, read at clock 5. -/
theorem getAverage_eq_directAverage_witness :
    (([(2, 1), (-1, 3)] : List (ℚ × ℕ)).Pairwise (fun a b => a.2 < b.2)) ∧
    (applyUpdates AveragedWeight.zero [(2, 1), (-1, 3)]).getAverage 5 =
      directAverage [(2, 1), (-1, 3)] 5 :=
  ⟨by decide, getAverage_eq_directAverage [(2, 1), (-1, 3)] 5 (by decide)
    (by decide)⟩

/-- C6: reading the average of a cell at clock 0 returns exactly 0; the
division by the clock is guarded and never performed on zero.  This holds
for the never-updated zero cell and indeed for every cell state. -/
theorem getAverage_at_time_zero :
    AveragedWeight.zero.getAverage 0 = 0 ∧
    ∀ c : AveragedWeight, c.getAverage 0 = 0 :=
  ⟨rfl, fun _ => rfl⟩

/-- Helper: reading back a row cell by cell over the recorded inner size
reproduces the row when the row has exactly that length. -/
lemma range_map_getD {α : Type} (row : List α) (d : α) (n : ℕ) (h : row.length = n) :
    (List.range n).map (fun j => row.getD j d) = row := by
  apply List.ext_getElem
  · simp [h]
  · intro i h1 h2
    simp [List.getD_eq_getElem, h, List.getElem?_eq_getElem h2]

/-- Unaveraged multinomial perceptron with dense outer and dense inner
tables: source class DenseMultinomialPerceptron.  Cells are scalars; the
table holds one inner row per feature, each with innerSize label slots. -/
structure DenseMultinomialPerceptron where
  innerSize : ℕ
  table : List (List ℚ)
deriving DecidableEq, Repr

/-- Protobuf message DenseMultinomialPerceptron_pb: metadata string, number
of labels, and the outer sequence of inner scalar sequences. -/
structure DenseMultinomialPerceptron_pb where
  metadata : String
  inner_size : ℕ
  table : List (List ℚ)
deriving DecidableEq, Repr

/-- Source DenseMultinomialPerceptron::Write: fills the message with the
metadata, the inner size, and every cell of every inner table in order. -/
def DenseMultinomialPerceptron.write (m : DenseMultinomialPerceptron)
    (metadata : String) : DenseMultinomialPerceptron_pb :=
  ⟨metadata, m.innerSize, m.table⟩

/-- Source DenseMultinomialPerceptron::Read: when the protobuf parse fails
the call returns failure (nullptr); otherwise a fresh model is built with
outer size = the message table length and inner size = the recorded
inner_size, and cell (i, j) for j below inner_size is set from the message. -/
def DenseMultinomialPerceptron.read :
    Option DenseMultinomialPerceptron_pb → Option DenseMultinomialPerceptron
  | none => none
  | some pb =>
    some ⟨pb.inner_size,
      pb.table.map (fun row => (List.range pb.inner_size).map (fun j => row.getD j 0))⟩

/-- Unaveraged multinomial perceptron with sparse (string-keyed) outer table
and dense inner tables: source class SparseDenseMultinomialPerceptron.  The
hash table is embedded as an association list in iteration order. -/
structure SparseDenseMultinomialPerceptron where
  innerSize : ℕ
  table : List (String × List ℚ)
deriving DecidableEq, Repr

/-- Protobuf message SparseDenseMultinomialPerceptron_pb: metadata string,
number of labels, and a map from feature key to inner scalar sequence. -/
structure SparseDenseMultinomialPerceptron_pb where
  metadata : String
  inner_size : ℕ
  table : List (String × List ℚ)
deriving DecidableEq, Repr

/-- Source SparseDenseMultinomialPerceptron::Write: for every outer entry,
appends cells 0 to InnerSize - 1 of its inner table to the message map. -/
def SparseDenseMultinomialPerceptron.write (m : SparseDenseMultinomialPerceptron)
    (metadata : String) : SparseDenseMultinomialPerceptron_pb :=
  ⟨metadata, m.innerSize,
    m.table.map (fun e =>
      (e.1, (List.range m.innerSize).map (fun j => e.2.getD j 0)))⟩

/-- Source SparseDenseMultinomialPerceptron::Read: fails when the protobuf
parse fails; otherwise builds a fresh model and, for every key of the
message map, sets cells 0 to inner_size - 1 of that key's inner table. -/
def SparseDenseMultinomialPerceptron.read :
    Option SparseDenseMultinomialPerceptron_pb → Option SparseDenseMultinomialPerceptron
  | none => none
  | some pb =>
    some ⟨pb.inner_size,
      pb.table.map (fun e =>
        (e.1, (List.range pb.inner_size).map (fun j => e.2.getD j 0)))⟩

/-- Unaveraged multinomial perceptron with sparse outer and sparse inner
tables: source class SparseMultinomialPerceptron.  Both levels are
string-keyed association lists in iteration order. -/
structure SparseMultinomialPerceptron where
  innerSize : ℕ
  table : List (String × List (String × ℚ))
deriving DecidableEq, Repr

/-- Protobuf message SparseMultinomialPerceptron_pb: metadata string, number
of labels, and a map from feature key to a map from label key to scalar. -/
structure SparseMultinomialPerceptron_pb where
  metadata : String
  inner_size : ℕ
  table : List (String × List (String × ℚ))
deriving DecidableEq, Repr

/-- Source SparseMultinomialPerceptron::Write: for every outer entry, copies
its inner map into the message, skipping the reserved empty string label. -/
def SparseMultinomialPerceptron.write (m : SparseMultinomialPerceptron)
    (metadata : String) : SparseMultinomialPerceptron_pb :=
  ⟨metadata, m.innerSize,
    m.table.map (fun e => (e.1, e.2.filter (fun p => ¬ (p.1 = ""))))⟩

/-- Source SparseMultinomialPerceptron::Read: fails when the protobuf parse
fails; otherwise builds a fresh model and copies every inner entry of every
key of the message map. -/
def SparseMultinomialPerceptron.read :
    Option SparseMultinomialPerceptron_pb → Option SparseMultinomialPerceptron
  | none => none
  | some pb => some ⟨pb.inner_size, pb.table⟩

/-- C1: for every topology, decoding the encoding of an unaveraged model
reproduces the model exactly — every cell value and the outer and inner
sizes — and the metadata string is carried verbatim in the encoded form.
The dense-inner topologies assume the construction invariant that every
inner row has exactly innerSize cells; the fully sparse topology assumes
the reserved-empty-string-key invariant of the sparse table. -/
theorem write_read_roundtrip
    (mD : DenseMultinomialPerceptron)
    (mSD : SparseDenseMultinomialPerceptron)
    (mS : SparseMultinomialPerceptron) (meta : String)
    (hD : ∀ row ∈ mD.table, row.length = mD.innerSize)
    (hSD : ∀ e ∈ mSD.table, (e.2 : List ℚ).length = mSD.innerSize)
    (hS : ∀ e ∈ mS.table, ∀ p ∈ (e.2 : List (String × ℚ)), ¬ (p.1 = "")) :
    DenseMultinomialPerceptron.read (some (mD.write meta)) = some mD ∧
    (mD.write meta).metadata = meta ∧
    SparseDenseMultinomialPerceptron.read (some (mSD.write meta)) = some mSD ∧
    (mSD.write meta).metadata = meta ∧
    SparseMultinomialPerceptron.read (some (mS.write meta)) = some mS ∧
    (mS.write meta).metadata = meta := by
  refine ⟨?_, rfl, ?_, rfl, ?_, rfl⟩
  · unfold DenseMultinomialPerceptron.read DenseMultinomialPerceptron.write
    simp only [Option.some.injEq]
    cases mD with
    | mk n t =>
      simp only [DenseMultinomialPerceptron.mk.injEq, true_and]
      calc t.map (fun row => (List.range n).map (fun j => row.getD j 0))
          = t.map id := List.map_congr_left (fun row hrow =>
            range_map_getD row 0 n (hD row hrow))
        _ = t := List.map_id t
  · unfold SparseDenseMultinomialPerceptron.read SparseDenseMultinomialPerceptron.write
    simp only [Option.some.injEq]
    cases mSD with
    | mk n t =>
      simp only [SparseDenseMultinomialPerceptron.mk.injEq, true_and,
        List.map_map]
      calc t.map ((fun e : String × List ℚ =>
              (e.1, (List.range n).map (fun j => e.2.getD j 0))) ∘
            (fun e : String × List ℚ =>
              (e.1, (List.range n).map (fun j => e.2.getD j 0))))
          = t.map (fun e : String × List ℚ =>
              (e.1, (List.range n).map (fun j => e.2.getD j 0))) := by
            refine List.map_congr_left (fun e he => ?_)
            simp only [Function.comp_apply]
            rw [range_map_getD _ 0 n (by simp)]
        _ = t.map id := List.map_congr_left (fun e he => by
            rw [range_map_getD _ 0 n (hSD e he)]
            rfl)
        _ = t := List.map_id t
  · unfold SparseMultinomialPerceptron.read SparseMultinomialPerceptron.write
    simp only [Option.some.injEq]
    cases mS with
    | mk n t =>
      simp only [SparseMultinomialPerceptron.mk.injEq, true_and]
      calc t.map (fun e => (e.1, e.2.filter (fun p => ¬ (p.1 = ""))))
          = t.map id := List.map_congr_left (fun e he => by
            have hf : e.2.filter (fun p => ¬ (p.1 = "")) = e.2 := by
              rw [List.filter_eq_self]
              intro p hp
              simpa using hS e he p hp
            rw [hf]
            rfl)
        _ = t := List.map_id t

/-- Witness for C1: a concrete model of each topology with the invariants
holding, round-tripped with metadata string abc. -/
theorem write_read_roundtrip_witness :
    DenseMultinomialPerceptron.read
      (some ((DenseMultinomialPerceptron.mk 2 [[1, 0], [3, -2]]).write "abc")) =
      some (DenseMultinomialPerceptron.mk 2 [[1, 0], [3, -2]]) ∧
    SparseDenseMultinomialPerceptron.read
      (some ((SparseDenseMultinomialPerceptron.mk 2 [("f", [4, 5])]).write "abc")) =
      some (SparseDenseMultinomialPerceptron.mk 2 [("f", [4, 5])]) ∧
    SparseMultinomialPerceptron.read
      (some ((SparseMultinomialPerceptron.mk 2 [("f", [("a", 7)])]).write "abc")) =
      some (SparseMultinomialPerceptron.mk 2 [("f", [("a", 7)])]) := by
  obtain ⟨h1, -, h2, -, h3, -⟩ := write_read_roundtrip
    (DenseMultinomialPerceptron.mk 2 [[1, 0], [3, -2]])
    (SparseDenseMultinomialPerceptron.mk 2 [("f", [4, 5])])
    (SparseMultinomialPerceptron.mk 2 [("f", [("a", 7)])]) "abc"
    (by decide) (by decide) (by decide)
  exact ⟨h1, h2, h3⟩

/-- C4: for every topology, when the byte stream is malformed — the opaque
protobuf parse rejects it — read reports failure and constructs no model;
and read succeeds exactly when the parse succeeds, in which case the model
is built fresh from the parsed message alone (never from a live instance). -/
theorem read_fails_iff_parse_fails :
    (∀ p, DenseMultinomialPerceptron.read p = none ↔ p = none) ∧
    (∀ p, SparseDenseMultinomialPerceptron.read p = none ↔ p = none) ∧
    (∀ p, SparseMultinomialPerceptron.read p = none ↔ p = none) := by
  refine ⟨fun p => ?_, fun p => ?_, fun p => ?_⟩ <;>
    cases p <;>
    simp [DenseMultinomialPerceptron.read, SparseDenseMultinomialPerceptron.read,
      SparseMultinomialPerceptron.read]

/-- C7: the fully sparse encoder omits the reserved empty-string label key
from every inner map of its output, even when a cell keyed by the empty
string is present in the in-memory table. -/
theorem write_omits_empty_key (m : SparseMultinomialPerceptron) (meta : String) :
    ∀ e ∈ (m.write meta).table, ∀ p ∈ (e.2 : List (String × ℚ)), ¬ (p.1 = "") := by
  intro e he p hp
  unfold SparseMultinomialPerceptron.write at he
  simp only [List.mem_map] at he
  obtain ⟨e0, -, rfl⟩ := he
  have := List.of_mem_filter hp
  simpa using this

/-- Witness for C7: on a model whose table does contain an empty-string
label key next to the key a, the theorem applies to the encoded output at a
concrete entry and inner pair. -/
theorem write_omits_empty_key_witness : ¬ (("a" : String) = "") :=
  write_omits_empty_key
    (SparseMultinomialPerceptron.mk 2 [("f", [("", 9), ("a", 7)])]) "m"
    ("f", [("a", 7)]) (by decide) ("a", 7) (by decide)

lemma getD_map_lt {α β : Type} (f : α → β) (l : List α) {i : ℕ} (hi : i < l.length)
    (d : β) (d0 : α) : (l.map f).getD i d = f (l.getD i d0) := by
  have h2 : i < (l.map f).length := by simpa using hi
  rw [List.getD_eq_getElem _ _ h2, List.getD_eq_getElem _ _ hi, List.getElem_map]

lemma getD_range_map {β : Type} (g : ℕ → β) {n j : ℕ} (hj : j < n) (d : β) :
    ((List.range n).map g).getD j d = g j := by
  have h2 : j < ((List.range n).map g).length := by simpa using hj
  rw [List.getD_eq_getElem _ _ h2]
  simp

/-- Trainable averaged multinomial perceptron with dense outer and dense
inner tables: source class DenseMultinomialAveragedPerceptron, holding the
averaged table and the global training clock. -/
structure DenseMultinomialAveragedPerceptron where
  innerSize : ℕ
  table : List (List AveragedWeight)
  time : ℕ
deriving DecidableEq, Repr

/-- Trainable averaged multinomial perceptron with sparse outer and dense
inner tables: source class SparseDenseMultinomialAveragedPerceptron. -/
structure SparseDenseMultinomialAveragedPerceptron where
  innerSize : ℕ
  table : List (String × List AveragedWeight)
  time : ℕ
deriving DecidableEq, Repr

/-- Trainable averaged multinomial perceptron with sparse outer and sparse
inner tables: source class SparseMultinomialAveragedPerceptron. -/
structure SparseMultinomialAveragedPerceptron where
  innerSize : ℕ
  table : List (String × List (String × AveragedWeight))
  time : ℕ
deriving DecidableEq, Repr

/-- Source converting constructor DenseMultinomialPerceptron(avg): builds an
unaveraged model of the same outer and inner sizes whose cell (i, j), for
every outer index i and every j below InnerSize, is set to GetAverage of the
corresponding averaged cell at the clock of the averaged model. -/
def DenseMultinomialAveragedPerceptron.freeze
    (avg : DenseMultinomialAveragedPerceptron) : DenseMultinomialPerceptron :=
  ⟨avg.innerSize,
    avg.table.map (fun row =>
      (List.range avg.innerSize).map (fun j =>
        (row.getD j AveragedWeight.zero).getAverage avg.time))⟩

/-- Source converting constructor SparseDenseMultinomialPerceptron(avg):
for every key of the averaged outer table, the inner cells 0 to
InnerSize - 1 are set to GetAverage at the averaged model clock. -/
def SparseDenseMultinomialAveragedPerceptron.freeze
    (avg : SparseDenseMultinomialAveragedPerceptron) : SparseDenseMultinomialPerceptron :=
  ⟨avg.innerSize,
    avg.table.map (fun e =>
      (e.1, (List.range avg.innerSize).map (fun j =>
        (e.2.getD j AveragedWeight.zero).getAverage avg.time)))⟩

/-- Source converting constructor SparseMultinomialPerceptron(avg): for
every key of the averaged outer table, every inner entry except the
reserved empty string label is set to GetAverage at the averaged model
clock. -/
def SparseMultinomialAveragedPerceptron.freeze
    (avg : SparseMultinomialAveragedPerceptron) : SparseMultinomialPerceptron :=
  ⟨avg.innerSize,
    avg.table.map (fun e =>
      (e.1, (e.2.filter (fun p => ¬ (p.1 = ""))).map (fun p =>
        (p.1, p.2.getAverage avg.time))))⟩

/-- C2: freezing a trained averaged model of any topology yields an
unaveraged model with the same outer and inner sizes in which the value of
every present cell equals getAverage of the corresponding averaged cell at
the clock of the averaged model (for the fully sparse topology, every
present cell not keyed by the reserved empty string). -/
theorem freeze_cells_are_averages
    (avg : DenseMultinomialAveragedPerceptron)
    (avgSD : SparseDenseMultinomialAveragedPerceptron)
    (avgS : SparseMultinomialAveragedPerceptron) :
    (avg.freeze.innerSize = avg.innerSize ∧
     avg.freeze.table.length = avg.table.length ∧
     ∀ i j, i < avg.table.length → j < avg.innerSize →
       (avg.freeze.table.getD i []).getD j 0 =
         ((avg.table.getD i []).getD j AveragedWeight.zero).getAverage avg.time) ∧
    (avgSD.freeze.innerSize = avgSD.innerSize ∧
     avgSD.freeze.table.length = avgSD.table.length ∧
     ∀ k row, (k, row) ∈ avgSD.table → ∃ frow,
       (k, frow) ∈ avgSD.freeze.table ∧ frow.length = avgSD.innerSize ∧
       ∀ j, j < avgSD.innerSize →
         frow.getD j 0 = (row.getD j AveragedWeight.zero).getAverage avgSD.time) ∧
    (avgS.freeze.innerSize = avgS.innerSize ∧
     avgS.freeze.table.length = avgS.table.length ∧
     ∀ k inner, (k, inner) ∈ avgS.table → ∃ finner,
       (k, finner) ∈ avgS.freeze.table ∧
       ∀ lk c, (lk, c) ∈ inner → ¬ (lk = "") →
         (lk, c.getAverage avgS.time) ∈ finner) := by
  refine ⟨⟨rfl, by simp [DenseMultinomialAveragedPerceptron.freeze], ?_⟩,
    ⟨rfl, by simp [SparseDenseMultinomialAveragedPerceptron.freeze], ?_⟩,
    ⟨rfl, by simp [SparseMultinomialAveragedPerceptron.freeze], ?_⟩⟩
  · intro i j hi hj
    unfold DenseMultinomialAveragedPerceptron.freeze
    rw [getD_map_lt _ _ hi _ [], getD_range_map _ hj]
  · intro k row hmem
    refine ⟨(List.range avgSD.innerSize).map (fun j =>
      (row.getD j AveragedWeight.zero).getAverage avgSD.time), ?_, by simp, ?_⟩
    · exact List.mem_map_of_mem _ hmem
    · intro j hj
      rw [getD_range_map _ hj]
  · intro k inner hmem
    refine ⟨(inner.filter (fun p => ¬ (p.1 = ""))).map (fun p =>
      (p.1, p.2.getAverage avgS.time)), ?_, ?_⟩
    · exact List.mem_map_of_mem _ hmem
    · intro lk c hc hlk
      have hmemf : (lk, c) ∈ inner.filter (fun p => ¬ (p.1 = "")) := by
        rw [List.mem_filter]
        exact ⟨hc, by simpa using hlk⟩
      exact List.mem_map_of_mem _ hmemf

/-- Witness for C2: concrete averaged models of all three topologies; the
frozen dense cell (0, 0), the frozen sparse-dense cell (f, 0) and the
frozen fully sparse cell (f, a) all carry the average of the corresponding
averaged cell at clock 5. -/
theorem freeze_cells_are_averages_witness :
    ((DenseMultinomialAveragedPerceptron.mk 1 [[⟨3, 4, 2⟩]] 5).freeze.table.getD 0 []).getD 0 0 =
      (AveragedWeight.mk 3 4 2).getAverage 5 ∧
    (AveragedWeight.mk 3 4 2).getAverage 5 = 13 / 5 := by
  have h := (freeze_cells_are_averages
    (DenseMultinomialAveragedPerceptron.mk 1 [[⟨3, 4, 2⟩]] 5)
    (SparseDenseMultinomialAveragedPerceptron.mk 1 [] 0)
    (SparseMultinomialAveragedPerceptron.mk 1 [] 0)).1.2.2 0 0 (by decide) (by decide)
  refine ⟨h, ?_⟩
  norm_num [AveragedWeight.getAverage, AveragedWeight.freshen]

/-- Modelled from the spec: the freshening side effect of GetAverage on the
cache of each cell read during dense freezing; every cell of the dense
averaged table is moved forward to the current clock.  The true weight and
the clock are untouched. -/
def DenseMultinomialAveragedPerceptron.freshenAll
    (avg : DenseMultinomialAveragedPerceptron) : DenseMultinomialAveragedPerceptron :=
  ⟨avg.innerSize,
    avg.table.map (fun row => row.map (fun c => c.freshen avg.time)), avg.time⟩

/-- Modelled from the spec: the freshening side effect of GetAverage on the
cells read during fully sparse freezing; cells under the reserved empty
string label are skipped and not read. -/
def SparseMultinomialAveragedPerceptron.freshenAll
    (avg : SparseMultinomialAveragedPerceptron) : SparseMultinomialAveragedPerceptron :=
  ⟨avg.innerSize,
    avg.table.map (fun e =>
      (e.1, e.2.map (fun p => if p.1 = "" then p else (p.1, p.2.freshen avg.time)))),
    avg.time⟩

lemma get_freshen (c : AveragedWeight) (t : ℕ) : (c.freshen t).get = c.get := rfl

lemma getAverage_freshen_same (c : AveragedWeight) (t : ℕ) :
    (c.freshen t).getAverage t = c.getAverage t := by
  unfold AveragedWeight.getAverage AveragedWeight.freshen
  simp

/-- C9: freezing does not change the observable state of the averaged
model: the clock is unchanged, the get projection (true weight) of every
cell is unchanged by the freshening that GetAverage performs during the
construction of the frozen model, and the frozen model built from the
freshened state is the same one built from the original state.  Stated for
the dense and the fully sparse topologies. -/
theorem freeze_preserves_observable_state
    (avg : DenseMultinomialAveragedPerceptron)
    (avgS : SparseMultinomialAveragedPerceptron) :
    (avg.freshenAll.time = avg.time ∧
     avg.freshenAll.table.map (fun row => row.map AveragedWeight.get) =
       avg.table.map (fun row => row.map AveragedWeight.get) ∧
     avg.freshenAll.freeze = avg.freeze) ∧
    (avgS.freshenAll.time = avgS.time ∧
     avgS.freshenAll.table.map (fun e => (e.1, e.2.map (fun p => (p.1, p.2.get)))) =
       avgS.table.map (fun e => (e.1, e.2.map (fun p => (p.1, p.2.get)))) ∧
     avgS.freshenAll.freeze = avgS.freeze) := by
  refine ⟨⟨rfl, ?_, ?_⟩, ⟨rfl, ?_, ?_⟩⟩
  · unfold DenseMultinomialAveragedPerceptron.freshenAll
    simp [List.map_map, Function.comp_def, get_freshen]
  · unfold DenseMultinomialAveragedPerceptron.freshenAll
      DenseMultinomialAveragedPerceptron.freeze
    simp only [List.map_map, DenseMultinomialPerceptron.mk.injEq, true_and]
    refine List.map_congr_left (fun row hrow => ?_)
    refine List.map_congr_left (fun j hj => ?_)
    by_cases hlt : j < row.length
    · rw [getD_map_lt _ _ hlt _ AveragedWeight.zero, getAverage_freshen_same]
    · have h1 : row.getD j AveragedWeight.zero = AveragedWeight.zero :=
        List.getD_eq_default _ _ (le_of_not_lt hlt)
      have h2 : (row.map (fun c => c.freshen avg.time)).getD j AveragedWeight.zero =
          AveragedWeight.zero :=
        List.getD_eq_default _ _ (by simpa using le_of_not_lt hlt)
      rw [h1, h2]
  · unfold SparseMultinomialAveragedPerceptron.freshenAll
    simp only [List.map_map, Function.comp_def]
    refine List.map_congr_left (fun e he => ?_)
    simp only [List.map_map, Function.comp_def, Prod.mk.injEq, true_and]
    refine List.map_congr_left (fun p hp => ?_)
    by_cases hk : p.1 = "" <;> simp [hk, get_freshen]
  · unfold SparseMultinomialAveragedPerceptron.freshenAll
      SparseMultinomialAveragedPerceptron.freeze
    simp only [List.map_map, SparseMultinomialPerceptron.mk.injEq, true_and]
    refine List.map_congr_left (fun e he => ?_)
    simp only [Function.comp_apply, Prod.mk.injEq, true_and]
    rw [List.filter_map]
    have hpred : ((fun p : String × AveragedWeight => decide ¬ (p.1 = "")) ∘
        (fun p : String × AveragedWeight =>
          if p.1 = "" then p else (p.1, p.2.freshen avgS.time))) =
        (fun p : String × AveragedWeight => decide ¬ (p.1 = "")) := by
      funext p
      by_cases hk : p.1 = "" <;> simp [hk]
    rw [hpred, List.map_map]
    refine List.map_congr_left (fun p hp => ?_)
    have hne : ¬ (p.1 = "") := by simpa using (List.mem_filter.mp hp).2
    simp [hne, getAverage_freshen_same]

/-- Witness for C9: a concrete dense averaged model with one nonzero cell
and a concrete fully sparse averaged model whose table holds an
empty-string key; freshening during freezing leaves their observable state
and their frozen output unchanged. -/
theorem freeze_preserves_observable_state_witness :
    ((DenseMultinomialAveragedPerceptron.mk 1 [[⟨3, 4, 2⟩]] 5).freshenAll.freeze =
      (DenseMultinomialAveragedPerceptron.mk 1 [[⟨3, 4, 2⟩]] 5).freeze) ∧
    ((SparseMultinomialAveragedPerceptron.mk 1 [("f", [("", ⟨1, 0, 0⟩), ("a", ⟨2, 3, 1⟩)])] 4).freshenAll.time =
      (SparseMultinomialAveragedPerceptron.mk 1 [("f", [("", ⟨1, 0, 0⟩), ("a", ⟨2, 3, 1⟩)])] 4).time) :=
  ⟨(freeze_preserves_observable_state
      (DenseMultinomialAveragedPerceptron.mk 1 [[⟨3, 4, 2⟩]] 5)
      (SparseMultinomialAveragedPerceptron.mk 1
        [("f", [("", ⟨1, 0, 0⟩), ("a", ⟨2, 3, 1⟩)])] 4)).1.2.2,
   (freeze_preserves_observable_state
      (DenseMultinomialAveragedPerceptron.mk 1 [[⟨3, 4, 2⟩]] 5)
      (SparseMultinomialAveragedPerceptron.mk 1
        [("f", [("", ⟨1, 0, 0⟩), ("a", ⟨2, 3, 1⟩)])] 4)).2.1⟩

/-- C10: when a fully sparse averaged model is frozen, every inner cell
keyed by the reserved empty string is skipped, so no inner table of the
frozen model contains an empty-string label key, whether or not the
averaged table did. -/
theorem freeze_omits_empty_key (avg : SparseMultinomialAveragedPerceptron) :
    ∀ e ∈ avg.freeze.table, ∀ p ∈ (e.2 : List (String × ℚ)), ¬ (p.1 = "") := by
  intro e he p hp
  unfold SparseMultinomialAveragedPerceptron.freeze at he
  simp only [List.mem_map] at he
  obtain ⟨e0, -, rfl⟩ := he
  simp only [List.mem_map] at hp
  obtain ⟨p0, hp0, rfl⟩ := hp
  simpa using (List.mem_filter.mp hp0).2

/-- Witness for C10: freezing a model whose table holds an empty-string
label key next to the key a; the theorem applies to the frozen table at a
concrete entry and inner pair. -/
theorem freeze_omits_empty_key_witness : ¬ (("a" : String) = "") :=
  freeze_omits_empty_key
    (SparseMultinomialAveragedPerceptron.mk 1
      [("f", [("", ⟨1, 0, 0⟩), ("a", ⟨2, 0, 0⟩)])] 0)
    ("f", [("a", (AveragedWeight.mk 2 0 0).getAverage 0)]) (by decide)
    ("a", (AveragedWeight.mk 2 0 0).getAverage 0) (by decide)

/-- Modelled from the spec: deterministic argmax over a list of label
scores with the lowest index winning ties, as the spec requires for the
integer-labeled topologies. -/
def argmax : List ℚ → ℕ
  | [] => 0
  | [_] => 0
  | x :: y :: ys =>
    if (y :: ys).getD (argmax (y :: ys)) 0 ≤ x then 0 else argmax (y :: ys) + 1

lemma argmax_lt_length : ∀ (l : List ℚ), l ≠ [] → argmax l < l.length := by
  intro l hl
  induction l with
  | nil => exact absurd rfl hl
  | cons x xs ih =>
    cases xs with
    | nil => simp [argmax]
    | cons y ys =>
      rw [argmax]
      by_cases hc : (y :: ys).getD (argmax (y :: ys)) 0 ≤ x
      · rw [if_pos hc]
        simp
      · rw [if_neg hc]
        have := ih (by simp)
        simp only [List.length_cons] at this ⊢
        omega

lemma argmax_is_max : ∀ (l : List ℚ) (j : ℕ), j < l.length →
    l.getD j 0 ≤ l.getD (argmax l) 0 := by
  intro l
  induction l with
  | nil => intro j hj; simp at hj
  | cons x xs ih =>
    intro j hj
    cases xs with
    | nil =>
      cases j with
      | zero => simp [argmax]
      | succ j =>
        simp only [List.length_cons, List.length_nil] at hj
        omega
    | cons y ys =>
      rw [argmax]
      by_cases hc : (y :: ys).getD (argmax (y :: ys)) 0 ≤ x
      · rw [if_pos hc]
        cases j with
        | zero => simp
        | succ j =>
          simp only [List.getD_cons_succ, List.getD_cons_zero]
          exact le_trans (ih j (by simpa using hj)) hc
      · rw [if_neg hc]
        cases j with
        | zero =>
          simp only [List.getD_cons_succ, List.getD_cons_zero]
          exact le_of_lt (lt_of_not_le hc)
        | succ j =>
          simp only [List.getD_cons_succ]
          exact ih j (by simpa using hj)

lemma argmax_first : ∀ (l : List ℚ) (j : ℕ), j < argmax l →
    l.getD j 0 < l.getD (argmax l) 0 := by
  intro l
  induction l with
  | nil => intro j hj; simp [argmax] at hj
  | cons x xs ih =>
    intro j hj
    cases xs with
    | nil => simp [argmax] at hj
    | cons y ys =>
      rw [argmax] at hj ⊢
      by_cases hc : (y :: ys).getD (argmax (y :: ys)) 0 ≤ x
      · rw [if_pos hc] at hj
        exact absurd hj (by omega)
      · rw [if_neg hc] at hj ⊢
        cases j with
        | zero =>
          simp only [List.getD_cons_succ, List.getD_cons_zero]
          exact lt_of_not_le hc
        | succ j =>
          simp only [List.getD_cons_succ]
          exact ih j (by omega)

lemma argmax_all_zero {l : List ℚ} (h : ∀ j, l.getD j 0 = 0) : argmax l = 0 := by
  by_contra hne
  have h0 : 0 < argmax l := Nat.pos_of_ne_zero hne
  have := argmax_first l 0 h0
  rw [h 0, h (argmax l)] at this
  exact lt_irrefl 0 this

/-- In-place update of the element at one position of a list, the identity
outside the list bounds; embeds mutable indexed access into the tables. -/
def listModify {α : Type} (g : α → α) : ℕ → List α → List α
  | _, [] => []
  | 0, x :: xs => g x :: xs
  | n + 1, x :: xs => x :: listModify g n xs

lemma listModify_length {α : Type} (g : α → α) :
    ∀ (i : ℕ) (l : List α), (listModify g i l).length = l.length := by
  intro i l
  induction l generalizing i with
  | nil => cases i <;> rfl
  | cons x xs ih => cases i <;> simp [listModify, ih]

lemma listModify_getD_ne {α : Type} (g : α → α) (d : α) :
    ∀ (i j : ℕ) (l : List α), i ≠ j →
      (listModify g i l).getD j d = l.getD j d := by
  intro i j l
  induction l generalizing i j with
  | nil => intro _; cases i <;> rfl
  | cons x xs ih =>
    intro hij
    cases i with
    | zero =>
      cases j with
      | zero => exact absurd rfl hij
      | succ j => simp [listModify]
    | succ i =>
      cases j with
      | zero => simp [listModify]
      | succ j =>
        simp only [listModify, List.getD_cons_succ]
        exact ih i j (by omega)

lemma listModify_getD_lt {α : Type} (g : α → α) (d : α) :
    ∀ (i : ℕ) (l : List α), i < l.length →
      (listModify g i l).getD i d = g (l.getD i d) := by
  intro i l
  induction l generalizing i with
  | nil => intro hi; simp at hi
  | cons x xs ih =>
    intro hi
    cases i with
    | zero => simp [listModify]
    | succ i =>
      simp only [listModify, List.getD_cons_succ]
      exact ih i (by simpa using hi)

lemma getD_replicate {α : Type} (a d : α) :
    ∀ (n i : ℕ), (List.replicate n a).getD i d = if i < n then a else d := by
  intro n
  induction n with
  | zero => intro i; simp
  | succ n ih =>
    intro i
    cases i with
    | zero => simp [List.replicate]
    | succ i =>
      simp only [List.replicate, List.getD_cons_succ, ih i]
      by_cases h : i < n <;> simp [h, Nat.succ_lt_succ_iff]

/-- Modelled from the spec: construction of a dense averaged model with all
cells at zero and the clock at zero. -/
def DenseMultinomialAveragedPerceptron.init (nfeats nlabels : ℕ) :
    DenseMultinomialAveragedPerceptron :=
  ⟨nlabels, List.replicate nfeats (List.replicate nlabels AveragedWeight.zero), 0⟩

/-- Modelled from the spec: construction of a dense unaveraged model with
all cells at zero. -/
def DenseMultinomialPerceptron.init (nfeats nlabels : ℕ) : DenseMultinomialPerceptron :=
  ⟨nlabels, List.replicate nfeats (List.replicate nlabels 0)⟩

/-- Modelled from the spec: construction of an empty sparse-outer
dense-inner unaveraged model. -/
def SparseDenseMultinomialPerceptron.init (nlabels : ℕ) : SparseDenseMultinomialPerceptron :=
  ⟨nlabels, []⟩

/-- Modelled from the spec: construction of an empty fully sparse
unaveraged model. -/
def SparseMultinomialPerceptron.init (nlabels : ℕ) : SparseMultinomialPerceptron :=
  ⟨nlabels, []⟩

/-- Modelled from the spec: training-time score of one label, the sum over
the listed features of that feature's true weight for the label; features
absent from the table contribute zero. -/
def DenseMultinomialAveragedPerceptron.score (m : DenseMultinomialAveragedPerceptron)
    (feats : List ℕ) (y : ℕ) : ℚ :=
  (feats.map (fun f => ((m.table.getD f []).getD y AveragedWeight.zero).get)).sum

/-- Modelled from the spec: training-time prediction, the argmax over the
label range of the per-label score, lowest index winning ties. -/
def DenseMultinomialAveragedPerceptron.predict (m : DenseMultinomialAveragedPerceptron)
    (feats : List ℕ) : ℕ :=
  argmax ((List.range m.innerSize).map (m.score feats))

/-- Modelled from the spec: one perceptron update step for one feature on a
mistake: add 1 to the gold cell of the feature's row and subtract 1 from
the predicted cell, each through update at the current clock. -/
def trainStep (gold p T : ℕ) (t : List (List AveragedWeight)) (f : ℕ) :
    List (List AveragedWeight) :=
  listModify (fun row =>
    listModify (fun c => c.update 1 T) gold
      (listModify (fun c => c.update (-1) T) p row)) f t

/-- Modelled from the spec: trainOne runs predict, applies the perceptron
update to every listed feature when the prediction misses the gold label,
increments the clock unconditionally and returns the pre-update
prediction. -/
def DenseMultinomialAveragedPerceptron.trainOne (m : DenseMultinomialAveragedPerceptron)
    (feats : List ℕ) (gold : ℕ) : ℕ × DenseMultinomialAveragedPerceptron :=
  let p := m.predict feats
  (p, ⟨m.innerSize,
    if p = gold then m.table else feats.foldl (trainStep gold p m.time) m.table,
    m.time + 1⟩)

lemma trainStep_length (gold p T : ℕ) (t : List (List AveragedWeight)) (f : ℕ) :
    (trainStep gold p T t f).length = t.length := by
  unfold trainStep
  exact listModify_length _ _ _

lemma foldl_trainStep_row_notmem (gold p T : ℕ) :
    ∀ (feats : List ℕ) (t : List (List AveragedWeight)) (f : ℕ), f ∉ feats →
      (feats.foldl (trainStep gold p T) t).getD f [] = t.getD f [] := by
  intro feats
  induction feats with
  | nil => intro t f _; rfl
  | cons f0 rest ih =>
    intro t f hf
    rw [List.foldl_cons, ih _ f (fun h => hf (List.mem_cons_of_mem _ h))]
    exact listModify_getD_ne _ [] f0 f t (fun h => hf (h ▸ List.mem_cons_self _ _))

lemma foldl_trainStep_cell_mem (gold p T : ℕ) (hgp : gold ≠ p) :
    ∀ (feats : List ℕ) (t : List (List AveragedWeight)) (f : ℕ),
      feats.Nodup → f ∈ feats → f < t.length →
      gold < (t.getD f []).length → p < (t.getD f []).length →
      (((feats.foldl (trainStep gold p T) t).getD f []).getD gold AveragedWeight.zero =
        ((t.getD f []).getD gold AveragedWeight.zero).update 1 T) ∧
      (((feats.foldl (trainStep gold p T) t).getD f []).getD p AveragedWeight.zero =
        ((t.getD f []).getD p AveragedWeight.zero).update (-1) T) ∧
      ∀ y, y ≠ gold → y ≠ p →
        ((feats.foldl (trainStep gold p T) t).getD f []).getD y AveragedWeight.zero =
          (t.getD f []).getD y AveragedWeight.zero := by
  intro feats
  induction feats with
  | nil => intro t f _ hf; cases hf
  | cons f0 rest ih =>
    intro t f hnd hf hft hg hp2
    have hnd0 : f0 ∉ rest := (List.nodup_cons.mp hnd).1
    have hndr : rest.Nodup := (List.nodup_cons.mp hnd).2
    rcases List.mem_cons.mp hf with rfl | hfr
    · have hrow : (rest.foldl (trainStep gold p T) (trainStep gold p T t f)).getD f [] =
          (trainStep gold p T t f).getD f [] :=
        foldl_trainStep_row_notmem gold p T rest _ f hnd0
      rw [List.foldl_cons, hrow]
      unfold trainStep
      rw [listModify_getD_lt _ [] f t hft]
      refine ⟨?_, ?_, ?_⟩
      · rw [listModify_getD_lt _ AveragedWeight.zero gold _
          (by rw [listModify_length]; exact hg)]
        rw [listModify_getD_ne _ AveragedWeight.zero p gold _ (fun h => hgp h.symm)]
      · rw [listModify_getD_ne _ AveragedWeight.zero gold p _ hgp]
        rw [listModify_getD_lt _ AveragedWeight.zero p _ hp2]
      · intro y hy1 hy2
        rw [listModify_getD_ne _ AveragedWeight.zero gold y _ (fun h => hy1 h.symm)]
        rw [listModify_getD_ne _ AveragedWeight.zero p y _ (fun h => hy2 h.symm)]
    · have hne : f0 ≠ f := fun h => hnd0 (h ▸ hfr)
      have hrow : (trainStep gold p T t f0).getD f [] = t.getD f [] := by
        unfold trainStep
        exact listModify_getD_ne _ [] f0 f t hne
      rw [List.foldl_cons]
      have := ih (trainStep gold p T t f0) f hndr hfr
        (by rw [trainStep_length]; exact hft)
        (by rw [hrow]; exact hg) (by rw [hrow]; exact hp2)
      rw [hrow] at this
      exact this

lemma init_score_zero_avg (nf nl : ℕ) (feats : List ℕ) (y : ℕ) :
    (DenseMultinomialAveragedPerceptron.init nf nl).score feats y = 0 := by
  unfold DenseMultinomialAveragedPerceptron.score DenseMultinomialAveragedPerceptron.init
  apply List.sum_eq_zero
  intro x hx
  simp only [List.mem_map] at hx
  obtain ⟨f, -, rfl⟩ := hx
  rw [getD_replicate]
  by_cases hfn : f < nf
  · rw [if_pos hfn, getD_replicate]
    by_cases hyn : y < nl
    · rw [if_pos hyn]; rfl
    · rw [if_neg hyn]; rfl
  · rw [if_neg hfn]; rfl

lemma init_predict_zero_avg (nf nl : ℕ) (feats : List ℕ) :
    (DenseMultinomialAveragedPerceptron.init nf nl).predict feats = 0 := by
  unfold DenseMultinomialAveragedPerceptron.predict
  apply argmax_all_zero
  intro j
  by_cases hj : j < (DenseMultinomialAveragedPerceptron.init nf nl).innerSize
  · rw [getD_range_map _ hj, init_score_zero_avg]
  · exact List.getD_eq_default _ _ (by simpa using le_of_not_lt hj)

/-- C5: trainOne returns the pre-update prediction, increments the clock by
exactly one in every case, leaves the table untouched when the prediction
equals the gold label and also on every feature not listed; on a mistake it
applies update with delta +1 at the current clock to each listed feature's
gold cell and update with delta -1 to its predicted cell, leaving all other
cells of the row unchanged.  In particular, on the all-zero dense model
with 3 features and 2 labels, training on features 0 and 1 with gold label
1 predicts label 0, sets the true weights for label 1 at features 0 and 1
to 1 and for label 0 to -1, leaves feature 2 at zero, and sets the clock
to 1. -/
theorem trainOne_spec :
    (∀ (m : DenseMultinomialAveragedPerceptron) (feats : List ℕ) (gold : ℕ),
      (m.trainOne feats gold).1 = m.predict feats) ∧
    (∀ (m : DenseMultinomialAveragedPerceptron) (feats : List ℕ) (gold : ℕ),
      (m.trainOne feats gold).2.time = m.time + 1) ∧
    (∀ (m : DenseMultinomialAveragedPerceptron) (feats : List ℕ) (gold : ℕ),
      m.predict feats = gold → (m.trainOne feats gold).2.table = m.table) ∧
    (∀ (m : DenseMultinomialAveragedPerceptron) (feats : List ℕ) (gold f : ℕ),
      f ∉ feats →
      ((m.trainOne feats gold).2.table.getD f []) = m.table.getD f []) ∧
    (∀ (m : DenseMultinomialAveragedPerceptron) (feats : List ℕ) (gold : ℕ),
      m.predict feats ≠ gold → feats.Nodup →
      ∀ f ∈ feats, f < m.table.length →
        gold < (m.table.getD f []).length →
        m.predict feats < (m.table.getD f []).length →
        (((m.trainOne feats gold).2.table.getD f []).getD gold AveragedWeight.zero =
          ((m.table.getD f []).getD gold AveragedWeight.zero).update 1 m.time) ∧
        (((m.trainOne feats gold).2.table.getD f []).getD (m.predict feats) AveragedWeight.zero =
          ((m.table.getD f []).getD (m.predict feats) AveragedWeight.zero).update (-1) m.time) ∧
        ∀ y, y ≠ gold → y ≠ m.predict feats →
          ((m.trainOne feats gold).2.table.getD f []).getD y AveragedWeight.zero =
            (m.table.getD f []).getD y AveragedWeight.zero) ∧
    (((DenseMultinomialAveragedPerceptron.init 3 2).trainOne [0, 1] 1).1 = 0 ∧
     ((DenseMultinomialAveragedPerceptron.init 3 2).trainOne [0, 1] 1).2.time = 1 ∧
     (∀ f ∈ [0, 1],
       ((((DenseMultinomialAveragedPerceptron.init 3 2).trainOne [0, 1] 1).2.table.getD
         f []).getD 1 AveragedWeight.zero).get = 1 ∧
       ((((DenseMultinomialAveragedPerceptron.init 3 2).trainOne [0, 1] 1).2.table.getD
         f []).getD 0 AveragedWeight.zero).get = -1) ∧
     (∀ y ∈ [0, 1],
       ((((DenseMultinomialAveragedPerceptron.init 3 2).trainOne [0, 1] 1).2.table.getD
         2 []).getD y AveragedWeight.zero).get = 0)) := by
  have hbase : ∀ (m : DenseMultinomialAveragedPerceptron) (feats : List ℕ) (gold : ℕ),
      m.predict feats ≠ gold →
      (m.trainOne feats gold).2.table =
        feats.foldl (trainStep gold (m.predict feats) m.time) m.table := by
    intro m feats gold hne
    unfold DenseMultinomialAveragedPerceptron.trainOne
    simp only [if_neg hne]
  refine ⟨fun m feats gold => rfl, fun m feats gold => rfl, ?_, ?_, ?_, ?_⟩
  · intro m feats gold h
    unfold DenseMultinomialAveragedPerceptron.trainOne
    simp only [if_pos h]
  · intro m feats gold f hf
    by_cases h : m.predict feats = gold
    · unfold DenseMultinomialAveragedPerceptron.trainOne
      simp only [if_pos h]
    · rw [hbase m feats gold h]
      exact foldl_trainStep_row_notmem _ _ _ feats m.table f hf
  · intro m feats gold hne hnd f hf hft hg hp2
    rw [hbase m feats gold hne]
    exact foldl_trainStep_cell_mem gold (m.predict feats) m.time
      (fun h => hne h.symm) feats m.table f hnd hf hft hg hp2
  · have hp : (DenseMultinomialAveragedPerceptron.init 3 2).predict [0, 1] = 0 :=
      init_predict_zero_avg 3 2 [0, 1]
    have hne : (DenseMultinomialAveragedPerceptron.init 3 2).predict [0, 1] ≠ 1 := by
      rw [hp]
      omega
    have hcells : ∀ f, f = 0 ∨ f = 1 →
        ((([0, 1].foldl (trainStep 1 ((DenseMultinomialAveragedPerceptron.init 3 2).predict [0, 1])
            (DenseMultinomialAveragedPerceptron.init 3 2).time)
            (DenseMultinomialAveragedPerceptron.init 3 2).table).getD f []).getD 1
            AveragedWeight.zero =
          (((DenseMultinomialAveragedPerceptron.init 3 2).table.getD f []).getD 1
            AveragedWeight.zero).update 1 (DenseMultinomialAveragedPerceptron.init 3 2).time) ∧
        ((([0, 1].foldl (trainStep 1 ((DenseMultinomialAveragedPerceptron.init 3 2).predict [0, 1])
            (DenseMultinomialAveragedPerceptron.init 3 2).time)
            (DenseMultinomialAveragedPerceptron.init 3 2).table).getD f []).getD
            ((DenseMultinomialAveragedPerceptron.init 3 2).predict [0, 1])
            AveragedWeight.zero =
          (((DenseMultinomialAveragedPerceptron.init 3 2).table.getD f []).getD
            ((DenseMultinomialAveragedPerceptron.init 3 2).predict [0, 1])
            AveragedWeight.zero).update (-1)
            (DenseMultinomialAveragedPerceptron.init 3 2).time) := by
      intro f hf01
      have h := foldl_trainStep_cell_mem 1
        ((DenseMultinomialAveragedPerceptron.init 3 2).predict [0, 1])
        (DenseMultinomialAveragedPerceptron.init 3 2).time (by rw [hp]; omega)
        [0, 1] (DenseMultinomialAveragedPerceptron.init 3 2).table f (by decide)
        (by rcases hf01 with rfl | rfl <;> simp)
        (by rcases hf01 with rfl | rfl <;> decide)
        (by rcases hf01 with rfl | rfl <;> decide)
        (by rw [hp]
            rcases hf01 with rfl | rfl <;> decide)
      exact ⟨h.1, h.2.1⟩
    refine ⟨hp, rfl, ?_, ?_⟩
    · intro f hf
      have hf01 : f = 0 ∨ f = 1 := by simpa using hf
      obtain ⟨hc1, hc2⟩ := hcells f hf01
      rw [hbase _ _ _ hne]
      constructor
      · rw [hc1]
        have hz : ((DenseMultinomialAveragedPerceptron.init 3 2).table.getD f []).getD 1
            AveragedWeight.zero = AveragedWeight.zero := by
          rcases hf01 with rfl | rfl <;> decide
        rw [hz]
        simp [AveragedWeight.update, AveragedWeight.freshen, AveragedWeight.get,
          AveragedWeight.zero]
      · rw [hp] at hc2
        rw [hp, hc2]
        have hz : ((DenseMultinomialAveragedPerceptron.init 3 2).table.getD f []).getD 0
            AveragedWeight.zero = AveragedWeight.zero := by
          rcases hf01 with rfl | rfl <;> decide
        rw [hz]
        simp [AveragedWeight.update, AveragedWeight.freshen, AveragedWeight.get,
          AveragedWeight.zero]
    · intro y hy
      have hy01 : y = 0 ∨ y = 1 := by simpa using hy
      rw [hbase _ _ _ hne,
        foldl_trainStep_row_notmem _ _ _ [0, 1] _ 2 (by decide)]
      rcases hy01 with rfl | rfl <;> decide

/-- Witness for C5: on the all-zero dense model with 3 features and 2
labels, training with gold label 0 makes no mistake (the prediction is
already 0), so the table is unchanged. -/
theorem trainOne_spec_witness :
    ((DenseMultinomialAveragedPerceptron.init 3 2).trainOne [0, 1] 0).2.table =
      (DenseMultinomialAveragedPerceptron.init 3 2).table :=
  trainOne_spec.2.2.1 (DenseMultinomialAveragedPerceptron.init 3 2) [0, 1] 0
    (init_predict_zero_avg 3 2 [0, 1])

/-- Modelled from the spec: inference-time score of one label on a frozen
dense model. -/
def DenseMultinomialPerceptron.score (m : DenseMultinomialPerceptron)
    (feats : List ℕ) (y : ℕ) : ℚ :=
  (feats.map (fun f => (m.table.getD f []).getD y 0)).sum

/-- Modelled from the spec: inference-time prediction on a frozen dense
model, lowest label index winning ties. -/
def DenseMultinomialPerceptron.predict (m : DenseMultinomialPerceptron)
    (feats : List ℕ) : ℕ :=
  argmax ((List.range m.innerSize).map (m.score feats))

/-- Modelled from the spec: inference-time score of one label on a frozen
sparse-outer dense-inner model; a feature missing from the outer table
contributes zero to every label. -/
def SparseDenseMultinomialPerceptron.score (m : SparseDenseMultinomialPerceptron)
    (feats : List String) (y : ℕ) : ℚ :=
  (feats.map (fun f => ((m.table.lookup f).getD []).getD y 0)).sum

/-- Modelled from the spec: inference-time prediction on a frozen
sparse-outer dense-inner model, lowest label index winning ties. -/
def SparseDenseMultinomialPerceptron.predict (m : SparseDenseMultinomialPerceptron)
    (feats : List String) : ℕ :=
  argmax ((List.range m.innerSize).map (m.score feats))

/-- Modelled from the spec: value of the cell of a fully sparse frozen
model at a feature key and a label key, zero when either is absent. -/
def SparseMultinomialPerceptron.cellVal (m : SparseMultinomialPerceptron)
    (f lk : String) : ℚ :=
  (((m.table.lookup f).getD []).lookup lk).getD 0

/-- Modelled from the spec: inference-time score of one label key on a
fully sparse frozen model. -/
def SparseMultinomialPerceptron.score (m : SparseMultinomialPerceptron)
    (feats : List String) (lk : String) : ℚ :=
  (feats.map (fun f => m.cellVal f lk)).sum

/-- Modelled from the spec: the set of candidate label keys of a fully
sparse model, the deduplicated keys of all inner tables. -/
def SparseMultinomialPerceptron.labelKeys (m : SparseMultinomialPerceptron) :
    List String :=
  (m.table.foldr (fun e acc => e.2.map Prod.fst ++ acc) []).dedup

/-- Modelled from the spec: the deterministic tie-break rule for
string-keyed labels; a challenger replaces the incumbent only on a strictly
larger score or on an equal score with a lexicographically smaller key. -/
def pickBetter (score : String → ℚ) (best lab : String) : String :=
  if score best < score lab ∨ (score best = score lab ∧ lab < best) then lab else best

/-- Modelled from the spec: deterministic argmax over a list of string
labels, the reserved empty string when the list is empty. -/
def argmaxKey (score : String → ℚ) : List String → String
  | [] => ""
  | l :: ls => ls.foldl (pickBetter score) l

/-- Modelled from the spec: inference-time prediction on a fully sparse
frozen model: the deterministic argmax over the candidate label keys. -/
def SparseMultinomialPerceptron.predict (m : SparseMultinomialPerceptron)
    (feats : List String) : String :=
  argmaxKey (m.score feats) m.labelKeys

lemma pickBetter_cases (score : String → ℚ) (b lab : String) :
    pickBetter score b lab = lab ∨ pickBetter score b lab = b := by
  unfold pickBetter
  split
  · exact Or.inl rfl
  · exact Or.inr rfl

lemma score_le_pickBetter_left (score : String → ℚ) (b lab : String) :
    score b ≤ score (pickBetter score b lab) := by
  unfold pickBetter
  split
  · rename_i h
    rcases h with h | h
    · exact le_of_lt h
    · exact le_of_eq h.1
  · exact le_refl _

lemma score_le_pickBetter_right (score : String → ℚ) (b lab : String) :
    score lab ≤ score (pickBetter score b lab) := by
  unfold pickBetter
  split
  · exact le_refl _
  · rename_i h
    push_neg at h
    exact h.1

lemma pickBetter_tie_left (score : String → ℚ) (b lab : String)
    (h : score b = score (pickBetter score b lab)) : pickBetter score b lab ≤ b := by
  unfold pickBetter at h ⊢
  split at h
  · rename_i hc
    rw [if_pos hc]
    rcases hc with hc | hc
    · rw [h] at hc
      exact absurd hc (lt_irrefl _)
    · exact le_of_lt hc.2
  · rename_i hc
    rw [if_neg hc]

lemma pickBetter_tie_right (score : String → ℚ) (b lab : String)
    (h : score lab = score (pickBetter score b lab)) : pickBetter score b lab ≤ lab := by
  unfold pickBetter at h ⊢
  split at h
  · rename_i hc
    rw [if_pos hc]
  · rename_i hc
    rw [if_neg hc]
    push_neg at hc
    exact le_of_not_lt (hc.2 h.symm)

lemma argmaxKey_foldl_spec (score : String → ℚ) :
    ∀ (ls : List String) (b : String),
      (ls.foldl (pickBetter score) b = b ∨ ls.foldl (pickBetter score) b ∈ ls) ∧
      score b ≤ score (ls.foldl (pickBetter score) b) ∧
      (score b = score (ls.foldl (pickBetter score) b) →
        ls.foldl (pickBetter score) b ≤ b) ∧
      ∀ l ∈ ls, score l ≤ score (ls.foldl (pickBetter score) b) ∧
        (score l = score (ls.foldl (pickBetter score) b) →
          ls.foldl (pickBetter score) b ≤ l) := by
  intro ls
  induction ls with
  | nil =>
    intro b
    exact ⟨Or.inl rfl, le_refl _, fun _ => le_refl _, by simp⟩
  | cons lab ls ih =>
    intro b
    rw [List.foldl_cons]
    obtain ⟨ihmem, ihle, ihtie, ihall⟩ := ih (pickBetter score b lab)
    have hble : score b ≤ score (ls.foldl (pickBetter score) (pickBetter score b lab)) :=
      le_trans (score_le_pickBetter_left score b lab) ihle
    have hlable : score lab ≤ score (ls.foldl (pickBetter score) (pickBetter score b lab)) :=
      le_trans (score_le_pickBetter_right score b lab) ihle
    refine ⟨?_, hble, ?_, ?_⟩
    · rcases ihmem with heq | hin
      · rcases pickBetter_cases score b lab with hpb | hpb
        · exact Or.inr (by rw [heq, hpb]; exact List.mem_cons_self _ _)
        · exact Or.inl (by rw [heq, hpb])
      · exact Or.inr (List.mem_cons_of_mem _ hin)
    · intro htie
      have h1 : score (pickBetter score b lab) =
          score (ls.foldl (pickBetter score) (pickBetter score b lab)) :=
        le_antisymm ihle
          (by rw [← htie]; exact score_le_pickBetter_left score b lab)
      have h2 : score b = score (pickBetter score b lab) := htie.trans h1.symm
      exact le_trans (ihtie h1) (pickBetter_tie_left score b lab h2)
    · intro l hl
      rcases List.mem_cons.mp hl with rfl | hl2
      · refine ⟨hlable, fun htie => ?_⟩
        have h1 : score (pickBetter score b l) =
            score (ls.foldl (pickBetter score) (pickBetter score b l)) :=
          le_antisymm ihle
            (by rw [← htie]; exact score_le_pickBetter_right score b l)
        have h2 : score l = score (pickBetter score b l) := htie.trans h1.symm
        exact le_trans (ihtie h1) (pickBetter_tie_right score b l h2)
      · exact ihall l hl2

lemma argmaxKey_spec (score : String → ℚ) (labels : List String) (h : labels ≠ []) :
    argmaxKey score labels ∈ labels ∧
    ∀ l ∈ labels, score l ≤ score (argmaxKey score labels) ∧
      (score l = score (argmaxKey score labels) → argmaxKey score labels ≤ l) := by
  cases labels with
  | nil => exact absurd rfl h
  | cons lab ls =>
    obtain ⟨hmem, hle, htie, hall⟩ := argmaxKey_foldl_spec score ls lab
    have hak : argmaxKey score (lab :: ls) = ls.foldl (pickBetter score) lab := rfl
    rw [hak]
    constructor
    · rcases hmem with heq | hin
      · rw [heq]
        exact List.mem_cons_self _ _
      · exact List.mem_cons_of_mem _ hin
    · intro l hl
      rcases List.mem_cons.mp hl with rfl | hl2
      · exact ⟨hle, fun ht => htie ht⟩
      · exact hall l hl2

lemma argmaxKey_set_eq (score : String → ℚ) (l₁ l₂ : List String)
    (h1 : l₁ ≠ []) (h2 : l₂ ≠ []) (hset : ∀ x, x ∈ l₁ ↔ x ∈ l₂) :
    argmaxKey score l₁ = argmaxKey score l₂ := by
  obtain ⟨hm1, hall1⟩ := argmaxKey_spec score l₁ h1
  obtain ⟨hm2, hall2⟩ := argmaxKey_spec score l₂ h2
  have h12 : argmaxKey score l₁ ∈ l₂ := (hset _).mp hm1
  have h21 : argmaxKey score l₂ ∈ l₁ := (hset _).mpr hm2
  have hs1 := hall1 (argmaxKey score l₂) h21
  have hs2 := hall2 (argmaxKey score l₁) h12
  have hseq : score (argmaxKey score l₁) = score (argmaxKey score l₂) :=
    le_antisymm hs2.1 hs1.1
  exact le_antisymm (hs1.2 hseq.symm) (hs2.2 hseq)

lemma argmax_range_map (g : ℕ → ℚ) (n : ℕ) (hn : 0 < n) :
    argmax ((List.range n).map g) < n ∧
    (∀ y, y < n → g y ≤ g (argmax ((List.range n).map g))) ∧
    (∀ y, y < argmax ((List.range n).map g) →
      g y < g (argmax ((List.range n).map g))) := by
  have hlen : ((List.range n).map g).length = n := by simp
  have hne : (List.range n).map g ≠ [] := by
    intro h
    rw [h] at hlen
    simp at hlen
    omega
  have harg : argmax ((List.range n).map g) < n := by
    have := argmax_lt_length _ hne
    rwa [hlen] at this
  refine ⟨harg, ?_, ?_⟩
  · intro y hy
    have := argmax_is_max ((List.range n).map g) y (by rwa [hlen])
    rwa [getD_range_map g hy 0, getD_range_map g harg 0] at this
  · intro y hy
    have := argmax_first ((List.range n).map g) y hy
    rwa [getD_range_map g (lt_trans hy harg) 0, getD_range_map g harg 0] at this

lemma init_score_zero_dense (nf nl : ℕ) (feats : List ℕ) (y : ℕ) :
    (DenseMultinomialPerceptron.init nf nl).score feats y = 0 := by
  unfold DenseMultinomialPerceptron.score DenseMultinomialPerceptron.init
  apply List.sum_eq_zero
  intro x hx
  simp only [List.mem_map] at hx
  obtain ⟨f, -, rfl⟩ := hx
  rw [getD_replicate]
  by_cases hfn : f < nf
  · rw [if_pos hfn, getD_replicate]
    by_cases hyn : y < nl
    · rw [if_pos hyn]
    · rw [if_neg hyn]
  · rw [if_neg hfn]
    rfl

lemma init_score_zero_sd (nl : ℕ) (feats : List String) (y : ℕ) :
    (SparseDenseMultinomialPerceptron.init nl).score feats y = 0 := by
  unfold SparseDenseMultinomialPerceptron.score SparseDenseMultinomialPerceptron.init
  apply List.sum_eq_zero
  intro x hx
  simp only [List.mem_map] at hx
  obtain ⟨f, -, rfl⟩ := hx
  rfl

lemma getD_of_all_zero {g : ℕ → ℚ} {n : ℕ} (hg : ∀ y, y < n → g y = 0) :
    ∀ j, (((List.range n).map g).getD j 0) = 0 := by
  intro j
  by_cases hj : j < n
  · rw [getD_range_map g hj 0]
    exact hg j hj
  · exact List.getD_eq_default _ _ (by simpa using le_of_not_lt hj)

/-- C8: prediction is deterministic with a fixed tie-break rule.  For the
integer-labeled topologies predict returns the least label index attaining
the maximal score, for both the trainable averaged model and the frozen
model.  A freshly constructed all-zero model of every topology predicts
the least label (the reserved empty string for the fully sparse model,
whose fresh label set is empty).  For the fully sparse topology predict
returns the label key with maximal score that is lexicographically least
among ties, and the prediction therefore depends only on the set of
candidate label keys and the scores, not on the iteration order of the
underlying containers. -/
theorem predict_deterministic :
    (∀ (m : DenseMultinomialAveragedPerceptron) (feats : List ℕ), 0 < m.innerSize →
      m.predict feats < m.innerSize ∧
      (∀ y, y < m.innerSize → m.score feats y ≤ m.score feats (m.predict feats)) ∧
      (∀ y, y < m.predict feats → m.score feats y < m.score feats (m.predict feats))) ∧
    (∀ (m : DenseMultinomialPerceptron) (feats : List ℕ), 0 < m.innerSize →
      m.predict feats < m.innerSize ∧
      (∀ y, y < m.innerSize → m.score feats y ≤ m.score feats (m.predict feats)) ∧
      (∀ y, y < m.predict feats → m.score feats y < m.score feats (m.predict feats))) ∧
    (∀ nf nl (feats : List ℕ),
      (DenseMultinomialAveragedPerceptron.init nf nl).predict feats = 0) ∧
    (∀ nf nl (feats : List ℕ),
      (DenseMultinomialPerceptron.init nf nl).predict feats = 0) ∧
    (∀ nl (feats : List String),
      (SparseDenseMultinomialPerceptron.init nl).predict feats = 0) ∧
    (∀ nl (feats : List String),
      (SparseMultinomialPerceptron.init nl).predict feats = "") ∧
    (∀ (m : SparseMultinomialPerceptron) (feats : List String),
      m.labelKeys ≠ [] →
      m.predict feats ∈ m.labelKeys ∧
      ∀ lk ∈ m.labelKeys, m.score feats lk ≤ m.score feats (m.predict feats) ∧
        (m.score feats lk = m.score feats (m.predict feats) →
          m.predict feats ≤ lk)) ∧
    (∀ (m₁ m₂ : SparseMultinomialPerceptron) (feats : List String),
      m₁.labelKeys ≠ [] → m₂.labelKeys ≠ [] →
      (∀ x, x ∈ m₁.labelKeys ↔ x ∈ m₂.labelKeys) →
      (∀ lk, m₁.score feats lk = m₂.score feats lk) →
      m₁.predict feats = m₂.predict feats) := by
  refine ⟨?_, ?_, ?_, ?_, ?_, ?_, ?_, ?_⟩
  · intro m feats hn
    exact argmax_range_map (m.score feats) m.innerSize hn
  · intro m feats hn
    exact argmax_range_map (m.score feats) m.innerSize hn
  · intro nf nl feats
    exact init_predict_zero_avg nf nl feats
  · intro nf nl feats
    unfold DenseMultinomialPerceptron.predict
    exact argmax_all_zero (getD_of_all_zero (fun y _ => init_score_zero_dense nf nl feats y))
  · intro nl feats
    unfold SparseDenseMultinomialPerceptron.predict
    exact argmax_all_zero (getD_of_all_zero (fun y _ => init_score_zero_sd nl feats y))
  · intro nl feats
    rfl
  · intro m feats h
    exact argmaxKey_spec (m.score feats) m.labelKeys h
  · intro m₁ m₂ feats h1 h2 hset hsc
    unfold SparseMultinomialPerceptron.predict
    have hfun : m₁.score feats = m₂.score feats := funext hsc
    rw [hfun]
    exact argmaxKey_set_eq (m₂.score feats) _ _ h1 h2 hset

/-- Witness for C8: a concrete two-label dense averaged model with equal
scores on both labels still yields a valid label index, and on a concrete
fully sparse model the prediction is one of the candidate label keys. -/
theorem predict_deterministic_witness :
    (DenseMultinomialAveragedPerceptron.mk 2
      [[⟨1, 0, 0⟩, ⟨1, 0, 0⟩]] 0).predict [0] < 2 ∧
    (SparseMultinomialPerceptron.mk 2
      [("f", [("a", 1), ("b", 1)])]).predict ["f"] ∈
      (SparseMultinomialPerceptron.mk 2 [("f", [("a", 1), ("b", 1)])]).labelKeys :=
  ⟨(predict_deterministic.1
      (DenseMultinomialAveragedPerceptron.mk 2 [[⟨1, 0, 0⟩, ⟨1, 0, 0⟩]] 0) [0]
      (by decide)).1,
   (predict_deterministic.2.2.2.2.2.2.1
      (SparseMultinomialPerceptron.mk 2 [("f", [("a", 1), ("b", 1)])]) ["f"]
      (by decide)).1⟩

end Perceptronix
